import Mathlib

/-!
Verification of the API-EX-CLI core (request templating / execution pipeline)
against its specification.  The JavaScript sources under `src/core` are
shallowly embedded: JS objects become association lists over `String` keys,
the lowdb-backed JSON store becomes an explicit `Json`-like tree, fallible
operations return `Except JsError`, and the wall clock is passed in
explicitly.  Every definition is a direct translation of the corresponding
source function (file and line references are given in the doc comments).
-/

namespace ApiEx

/-! ## Association lists (JS objects) -/

/-- Lookup of a property on a JS object modelled as an association list
(first binding wins, as JS objects have unique keys). -/
def assocGet {α : Type} (l : List (String × α)) (k : String) : Option α :=
  match l with
  | [] => none
  | (k0, v) :: rest => if k0 = k then some v else assocGet rest k

/-- JS property assignment `o[k] = v`: replaces an existing binding in place
(keeping key order), otherwise appends the new binding. -/
def assocSet {α : Type} (l : List (String × α)) (k : String) (v : α) :
    List (String × α) :=
  match l with
  | [] => [(k, v)]
  | (k0, v0) :: rest =>
      if k0 = k then (k0, v) :: rest else (k0, v0) :: assocSet rest k v

/-- JS `delete o[k]`. -/
def assocRemove {α : Type} (l : List (String × α)) (k : String) :
    List (String × α) :=
  l.filter (fun p => ¬ p.1 = k)

theorem assocGet_assocSet_self {α : Type} (l : List (String × α)) (k : String)
    (v : α) : assocGet (assocSet l k v) k = some v := by
  induction l with
  | nil => simp [assocGet, assocSet]
  | cons hd tl ih =>
      by_cases h : hd.1 = k
      · simp [assocSet, assocGet, h]
      · simpa [assocSet, assocGet, h] using ih

/-- JS `\s` on the character sets exercised here (space, tab, and the ASCII
line/page separators; the Unicode space classes never occur in the strings
this tool handles). -/
def isSpaceJs (c : Char) : Bool :=
  c = ' ' ∨ c = '\t' ∨ c = '\n' ∨ c = '\r' ∨ c = '\x0b' ∨ c = '\x0c'

/-- JS `String.prototype.trim`: strip leading and trailing whitespace. -/
def trimJs (s : String) : String :=
  String.mk (((s.data.dropWhile isSpaceJs).reverse.dropWhile isSpaceJs).reverse)

theorem assocGet_assocSet_ne {α : Type} (l : List (String × α))
    (k k0 : String) (v : α) (h : k0 ≠ k) :
    assocGet (assocSet l k0 v) k = assocGet l k := by
  induction l with
  | nil => simp [assocGet, assocSet, h]
  | cons hd tl ih =>
      by_cases h0 : hd.1 = k0
      · simp [assocSet, assocGet, h0, h]
      · simp [assocSet, assocGet, h0]
        split
        · rfl
        · exact ih

end ApiEx

namespace ApiEx

/-! ## The lowdb JSON document

`saveEnvironment` writes through the lodash path string `environments.${name}`
(src/core/storage.js line 125), so the stored `environments` value must be
modelled as a genuine JSON tree: a dotted name creates nested objects.
String leaves cover the variable values; the claims exercise no other
value shapes. -/

inductive Json : Type where
  | str : String → Json
  | obj : List (String × Json) → Json
deriving Repr

/-- JS truthiness of a possibly-absent stored value (`undefined` and the
empty string are falsy; every object is truthy). -/
def jsTruthy : Option Json → Bool
  | none => false
  | some (Json.str s) => ¬ s = ""
  | some (Json.obj _) => true

/-- lodash `stringToPath` restricted to plain dot-separated paths, which is
the only shape `saveEnvironment` / `removeEnvironment` produce (bracket
syntax never occurs in an environment name reaching these calls). -/
def splitDotChars : List Char → List (List Char)
  | [] => [[]]
  | c :: cs =>
      let r := splitDotChars cs
      if c = '.' then [] :: r
      else
        match r with
        | [] => [[c]]
        | h :: t => (c :: h) :: t

def splitDot (s : String) : List String :=
  (splitDotChars s.data).map (fun l => String.mk l)

/-- The object child stored under `k`, or a fresh empty object when the key
is missing or holds a non-object — exactly lodash `baseSet`, which replaces
a non-object intermediate with `{}` while walking a path. -/
def childObj (fs : List (String × Json)) (k : String) : Json :=
  match assocGet fs k with
  | some (Json.obj f) => Json.obj f
  | _ => Json.obj []

/-- lodash `_.set(obj, path, v)` for object paths (a primitive met along the
path is replaced by a fresh object, as `baseSet` does). -/
def jsonSet : Json → List String → Json → Json
  | _, [], v => v
  | j, k :: rest, v =>
      let fs := match j with
        | Json.obj f => f
        | Json.str _ => []
      match rest with
      | [] => Json.obj (assocSet fs k v)
      | _ :: _ => Json.obj (assocSet fs k (jsonSet (childObj fs k) rest v))

/-- lodash `_.unset(obj, path)` for object paths: walks existing keys and
deletes the final one; a missing or non-object intermediate makes it a
no-op. -/
def jsonUnset : Json → List String → Json
  | Json.obj fs, [k] => Json.obj (assocRemove fs k)
  | Json.obj fs, k :: rest@(_ :: _) =>
      Json.obj (fs.map (fun p => if p.1 = k then (p.1, jsonUnset p.2 rest) else p))
  | j, _ => j

end ApiEx

namespace ApiEx

/-! ## Error taxonomy (src/core/errors.js)

`errors.js` defines `ApiExError` and its subclasses `NetworkError`,
`ValidationError`, `ConfigurationError`, `FileSystemError`; code that
predates the taxonomy throws plain `Error`.  Notably the file defines no
`NotFoundError`. -/

inductive JsError : Type where
  /-- a plain `new Error(msg)` -/
  | error : String → JsError
  | network : String → JsError
  | validation : String → JsError
  | configuration : String → JsError
  | fileSystem : String → JsError
deriving Repr, DecidableEq

end ApiEx

namespace ApiEx

/-! ## History ledger (src/core/history.js, latest revision)

The on-disk document is `{ history: [entry...] }`.  An entry carries the
ISO-8601 timestamp attached at record time plus the caller-supplied payload;
ISO strings compare like the clock they came from, so the timestamp is
modelled as a `Nat` (milliseconds).  The payload is kept abstract. -/

structure TimedEntry (α : Type) : Type where
  timestamp : Nat
  payload : α
deriving Repr, DecidableEq

/-- The `db.get('history').push(entryWithTimestamp).write()` step of
`recordHistory` (src/core/history.js lines 28-34): spread the entry, attach
the current time, append at the end. -/
def appendEntry {α : Type} (now : Nat) (entry : α) (history : List (TimedEntry α)) :
    List (TimedEntry α) :=
  history ++ [⟨now, entry⟩]

/-- `recordHistory(entry)` (src/core/history.js lines 23-35): a missing/null
entry throws `Error('History entry is required')`; otherwise the timestamped
entry is pushed onto the persisted array.  No size cap is applied anywhere
on the write path. -/
def recordHistory {α : Type} (now : Nat) (entry : Option α)
    (history : List (TimedEntry α)) : Except JsError (List (TimedEntry α)) :=
  match entry with
  | none => Except.error (JsError.error "History entry is required")
  | some e => Except.ok (appendEntry now e history)

/-- Runs a sequence of successful `recordHistory` calls, oldest first. -/
def runAppends {α : Type} (calls : List (Nat × α)) : List (TimedEntry α) :=
  calls.foldl (fun h c => appendEntry c.1 c.2 h) []

/-- One step of the stable descending insertion: the element being inserted
came earlier in the input, so it is placed before the first element whose
timestamp is less than or equal to its own. -/
def orderedInsertDesc {α : Type} (a : TimedEntry α) :
    List (TimedEntry α) → List (TimedEntry α)
  | [] => [a]
  | b :: l =>
      if b.timestamp ≤ a.timestamp then a :: b :: l
      else b :: orderedInsertDesc a l

/-- The sort step of `getHistory` (src/core/env.js lines 275-280, the file's
final revision of history.js): `history.sort((a, b) => dateB - dateA)`.
`Array.prototype.sort` is stable (ES2019) and the comparator is a total
preorder on the timestamp, so its result is the unique stable descending
order, here computed by stable insertion sort. -/
def sortByTsDesc {α : Type} : List (TimedEntry α) → List (TimedEntry α)
  | [] => []
  | a :: l => orderedInsertDesc a (sortByTsDesc l)

/-- `getHistory(options)` (src/core/env.js lines 268-292, the final revision
of history.js): sort descending by timestamp, default the limit to 10 when
`options.limit` is undefined, and return `history.slice(0, limit)`. -/
def getHistory {α : Type} (limit : Option Nat) (history : List (TimedEntry α)) :
    List (TimedEntry α) :=
  (sortByTsDesc history).take (match limit with
    | some n => n
    | none => 10)

theorem orderedInsertDesc_perm {α : Type} (a : TimedEntry α)
    (l : List (TimedEntry α)) : (orderedInsertDesc a l).Perm (a :: l) := by
  induction l with
  | nil => simp [orderedInsertDesc]
  | cons b t ih =>
      by_cases h : b.timestamp ≤ a.timestamp
      · simp [orderedInsertDesc, h]
      · simp only [orderedInsertDesc, h, if_false]
        exact ((ih.cons b).trans (List.Perm.swap a b t))

theorem sortByTsDesc_perm {α : Type} (l : List (TimedEntry α)) :
    (sortByTsDesc l).Perm l := by
  induction l with
  | nil => simp [sortByTsDesc]
  | cons a t ih =>
      exact (orderedInsertDesc_perm a (sortByTsDesc t)).trans (ih.cons a)

theorem length_sortByTsDesc {α : Type} (l : List (TimedEntry α)) :
    (sortByTsDesc l).length = l.length :=
  (sortByTsDesc_perm l).length_eq

theorem orderedInsertDesc_pairwise {α : Type} (a : TimedEntry α)
    (l : List (TimedEntry α))
    (h : l.Pairwise (fun x y => y.timestamp ≤ x.timestamp)) :
    (orderedInsertDesc a l).Pairwise (fun x y => y.timestamp ≤ x.timestamp) := by
  induction l with
  | nil => simp [orderedInsertDesc]
  | cons b t ih =>
      rcases List.pairwise_cons.mp h with ⟨hb, ht⟩
      by_cases hba : b.timestamp ≤ a.timestamp
      · simp only [orderedInsertDesc, hba, if_true]
        refine List.pairwise_cons.mpr ⟨?_, h⟩
        intro y hy
        rcases List.mem_cons.mp hy with hy | hy
        · subst hy
          exact hba
        · exact le_trans (hb y hy) hba
      · simp only [orderedInsertDesc, hba, if_false]
        refine List.pairwise_cons.mpr ⟨?_, ih ht⟩
        intro y hy
        rcases List.mem_cons.mp ((orderedInsertDesc_perm a t).mem_iff.mp hy) with
          hy2 | hy2
        · subst hy2
          exact le_of_lt (Nat.lt_of_not_le hba)
        · exact hb y hy2

theorem sortByTsDesc_pairwise {α : Type} (l : List (TimedEntry α)) :
    (sortByTsDesc l).Pairwise (fun x y => y.timestamp ≤ x.timestamp) := by
  induction l with
  | nil => simp [sortByTsDesc]
  | cons a t ih => exact orderedInsertDesc_pairwise a (sortByTsDesc t) ih

theorem filter_orderedInsertDesc_eq {α : Type} (c : Nat) (a : TimedEntry α)
    (l : List (TimedEntry α)) (ha : a.timestamp = c)
    (hl : ∀ x ∈ l, ¬ x.timestamp ≤ a.timestamp → x.timestamp ≠ c) :
    (orderedInsertDesc a l).filter (fun e => e.timestamp = c) =
      a :: l.filter (fun e => e.timestamp = c) := by
  induction l with
  | nil => simp [orderedInsertDesc, List.filter_cons, ha]
  | cons b t ih =>
      by_cases hba : b.timestamp ≤ a.timestamp
      · simp only [orderedInsertDesc, hba, if_true]
        simp [List.filter_cons, ha]
      · have hbc : b.timestamp ≠ c := hl b (List.mem_cons_self b t) hba
        have ih2 := ih (fun x hx h2 => hl x (List.mem_cons_of_mem b hx) h2)
        simp only [orderedInsertDesc, hba, if_false, List.filter_cons]
        simp [hbc, ih2]

theorem filter_orderedInsertDesc_ne {α : Type} (c : Nat) (a : TimedEntry α)
    (l : List (TimedEntry α)) (ha : a.timestamp ≠ c) :
    (orderedInsertDesc a l).filter (fun e => e.timestamp = c) =
      l.filter (fun e => e.timestamp = c) := by
  induction l with
  | nil => simp [orderedInsertDesc, List.filter_cons, ha]
  | cons b t ih =>
      by_cases hba : b.timestamp ≤ a.timestamp
      · simp only [orderedInsertDesc, hba, if_true]
        simp [List.filter_cons, ha]
      · by_cases hbc : b.timestamp = c
        · simp only [orderedInsertDesc, hba, if_false, List.filter_cons]
          simp [hbc, ih]
        · simp only [orderedInsertDesc, hba, if_false, List.filter_cons]
          simp [hbc, ih]

/-- Stability of the sort: the entries carrying any one fixed timestamp
appear in the sorted output in their original insertion order. -/
theorem sortByTsDesc_stable {α : Type} (l : List (TimedEntry α)) (c : Nat) :
    (sortByTsDesc l).filter (fun e => e.timestamp = c) =
      l.filter (fun e => e.timestamp = c) := by
  induction l with
  | nil => simp [sortByTsDesc]
  | cons a t ih =>
      by_cases ha : a.timestamp = c
      · have hl : ∀ x ∈ sortByTsDesc t, ¬ x.timestamp ≤ a.timestamp →
            x.timestamp ≠ c := by
          intro x hx hxa hxc
          exact hxa (le_of_eq (by rw [hxc, ha]))
        rw [sortByTsDesc, filter_orderedInsertDesc_eq c a (sortByTsDesc t) ha hl, ih]
        simp [List.filter_cons, ha]
      · rw [sortByTsDesc, filter_orderedInsertDesc_ne c a (sortByTsDesc t) ha, ih]
        simp [List.filter_cons, ha]

end ApiEx

namespace ApiEx

/-! ## Variable store (src/core/storage.js)

The lowdb document `data.json` holds `{ requests: [...], environments: {...} }`
(defaults written by `initStorage`).  Each operation re-reads and rewrites the
whole document; the document itself is the state threaded through here.
Request templates are JS objects with string or string-array fields. -/

inductive FieldVal : Type where
  | str : String → FieldVal
  | strList : List String → FieldVal
deriving Repr, DecidableEq

/-- JS strict equality `===` on a possibly-absent field value, as used by
`findIndex(r => r.name === request.name)`: strings compare by value,
`undefined === undefined` holds, and arrays compare by reference (two
distinct array values are never `===`). -/
def jsStrictEqField : Option FieldVal → Option FieldVal → Bool
  | none, none => true
  | some (FieldVal.str a), some (FieldVal.str b) => a = b
  | _, _ => false

/-- `Object.assign(target, source)` (what the lodash chain
`.nth(i).assign(request)` performs): source keys are written into the target
in order, overwriting existing bindings in place and appending new ones. -/
def jsAssign (target source : List (String × FieldVal)) :
    List (String × FieldVal) :=
  source.foldl (fun acc p => assocSet acc p.1 p.2) target

/-- `saveRequest(request)` (src/core/storage.js lines 85-102) acting on the
`requests` array: `findIndex` on matching `name`, then
`nth(i).assign(request)` on a hit, else `push(request)`.  Written as one
recursion: the first entry whose name matches is assign-merged, otherwise
the request is appended at the end — extensionally the same computation. -/
def saveRequestList : List (List (String × FieldVal)) →
    List (String × FieldVal) → List (List (String × FieldVal))
  | [], request => [request]
  | r :: rest, request =>
      if jsStrictEqField (assocGet r "name") (assocGet request "name") then
        jsAssign r request :: rest
      else
        r :: saveRequestList rest request

/-- The `data.json` document. -/
structure DataStore : Type where
  requests : List (List (String × FieldVal))
  environments : Json

/-- The default document written by `initStorage` / `getDb`:
`{requests: [], environments: {}}`. -/
def initialStore : DataStore := ⟨[], Json.obj []⟩

def getRequests (ds : DataStore) : List (List (String × FieldVal)) :=
  ds.requests

/-- `getRequestByName(name)` (src/core/storage.js lines 73-78):
`requests.find(r => r.name === name) || null`. -/
def getRequestByName (ds : DataStore) (name : String) :
    Option (List (String × FieldVal)) :=
  ds.requests.find? (fun r =>
    jsStrictEqField (assocGet r "name") (some (FieldVal.str name)))

def saveRequest (ds : DataStore) (request : List (String × FieldVal)) :
    DataStore :=
  { ds with requests := saveRequestList ds.requests request }

/-- `getEnvironments()` (src/core/storage.js lines 108-115). -/
def getEnvironments (ds : DataStore) : Json :=
  ds.environments

/-- Plain property access `environments[name]` on the environments object. -/
def envLookup (j : Json) (k : String) : Option Json :=
  match j with
  | Json.obj fs => assocGet fs k
  | Json.str _ => none

/-- `Object.keys(environments)`. -/
def envKeys (j : Json) : List String :=
  match j with
  | Json.obj fs => fs.map Prod.fst
  | Json.str _ => []

/-- `saveEnvironment(name, variables)` (src/core/storage.js lines 119-126):
`db.set(`environments.${name}`, variables).write()`.  The lodash path is the
string `environments.` ++ name split on dots; since the document root always
carries `environments` as an object, writing that path equals updating the
environments tree at the path `splitDot name`. -/
def saveEnvironment (ds : DataStore) (name : String) (vars : Json) :
    DataStore :=
  { ds with environments := jsonSet ds.environments (splitDot name) vars }

/-- `removeEnvironment(name)` (src/core/storage.js lines 130-141): the guard
reads the plain property `environments[name]` and throws a plain
`new Error(...)` on a falsy value; the removal itself goes through the
lodash path `environments.${name}`. -/
def removeEnvironment (ds : DataStore) (name : String) :
    Except JsError DataStore :=
  if jsTruthy (envLookup ds.environments name) then
    Except.ok { ds with environments := jsonUnset ds.environments (splitDot name) }
  else
    Except.error (JsError.error ("Environment \x27" ++ name ++ "\x27 does not exist"))

end ApiEx

namespace ApiEx

/-! ## Environment lookup (src/core/env.js, final revision, lines 103-133) -/

/-- The message built for an unknown environment. -/
def unknownEnvMessage (envName : String) (available : List String) : String :=
  "Unknown environment \"" ++ envName ++ "\". " ++
    (if available.isEmpty then
      "No environments have been defined yet."
    else
      "Available environments: " ++ String.intercalate ", " available ++ ".")

/-- `getEnv(name)`: trims a string name (a non-string becomes `''`), rejects
an empty name, then looks the name up as a plain property of the
environments object, failing with a `ConfigurationError` that enumerates the
available names when the value is absent (falsy). -/
def getEnv (ds : DataStore) (name : Option String) : Except JsError Json :=
  let envName := match name with
    | some s => trimJs s
    | none => ""
  if envName = "" then
    Except.error (JsError.configuration "Environment name is required.")
  else
    let environments := getEnvironments ds
    match envLookup environments envName with
    | some env =>
        if jsTruthy (some env) then Except.ok env
        else Except.error (JsError.configuration
          (unknownEnvMessage envName (envKeys environments)))
    | none =>
        Except.error (JsError.configuration
          (unknownEnvMessage envName (envKeys environments)))

end ApiEx

namespace ApiEx

/-! ## Dispatcher (src/core/http.js — final revision carrying the typed
errors, i.e. the `sendRequest` at src/core/errors.js lines 140-216)

The axios call is abstracted as a transport collaborator mapping the built
axios config to either a status-carrying response (the config sets
`validateStatus: () => true`, so every HTTP status arrives as a response)
or a transport failure shaped like an axios error object.  Wall-clock
elapsed time (`Date.now()` before/after) is passed in as `elapsedMs`. -/

/-- Truthiness of an optional JS string (absent and `''` are falsy). -/
def jsFalsyStr (o : Option String) : Bool :=
  match o with
  | none => true
  | some s => s = ""

structure HttpConfig : Type where
  method : Option String := none
  url : Option String := none
  headers : Option (List (String × String)) := none
  data : Option String := none
  timeout : Option Int := none
deriving Repr, DecidableEq

/-- The object handed to axios. -/
structure AxiosConfig : Type where
  method : String
  url : String
  headers : List (String × String)
  data : Option String
  timeout : Int
deriving Repr, DecidableEq

structure HttpResponse : Type where
  status : Int
  statusText : String
  headers : List (String × String)
  data : String
  durationMs : Nat
deriving Repr, DecidableEq

/-- An axios rejection: its `code`, `message`, the optional `response`
object (status and statusText), and whether `request` was set. -/
structure TransportFailure : Type where
  code : Option String
  message : String
  response : Option (Int × String)
  hasRequest : Bool
deriving Repr, DecidableEq

inductive TransportOutcome : Type where
  | response (status : Int) (statusText : String)
      (headers : List (String × String)) (data : String)
  | failure (f : TransportFailure)
deriving Repr, DecidableEq

/-- `const timeout = config.timeout || 30000` — `0` (and only `0`, among
numbers) is falsy, so it falls back to the default; any other value,
negative or huge, is kept. -/
def resolveTimeout (t : Option Int) : Int :=
  match t with
  | some v => if v = 0 then 30000 else v
  | none => 30000

def headerTruthy (hs : List (String × String)) (k : String) : Bool :=
  match assocGet hs k with
  | none => false
  | some v => ¬ v = ""

/-- `if (!headers['Content-Type'] && !headers['content-type'] && config.data)
headers['Content-Type'] = 'application/json'`. -/
def addDefaultContentType (hs : List (String × String)) (data : Option String) :
    List (String × String) :=
  if ¬ headerTruthy hs "Content-Type" ∧ ¬ headerTruthy hs "content-type" ∧
      ¬ jsFalsyStr data then
    assocSet hs "Content-Type" "application/json"
  else
    hs

/-- The validation and normalization prefix of `sendRequest` (config checks,
timeout default, content-type default) producing the axios config, or the
`ValidationError` thrown before any dispatch. -/
def resolveAxiosConfig (config : Option HttpConfig) :
    Except JsError AxiosConfig :=
  match config with
  | none => Except.error (JsError.validation "Request configuration is required")
  | some cfg =>
      if jsFalsyStr cfg.method then
        Except.error (JsError.validation "Request method is required")
      else if jsFalsyStr cfg.url then
        Except.error (JsError.validation "Request URL is required")
      else
        Except.ok
          { method := cfg.method.getD ""
            url := cfg.url.getD ""
            headers := addDefaultContentType (cfg.headers.getD []) cfg.data
            data := cfg.data
            timeout := resolveTimeout cfg.timeout }

def hasSubstrChars (needle : List Char) : List Char → Bool
  | [] => List.isPrefixOf needle []
  | c :: cs => List.isPrefixOf needle (c :: cs) || hasSubstrChars needle cs

/-- JS `String.prototype.includes`. -/
def strIncludes (s needle : String) : Bool :=
  hasSubstrChars needle.data s.data

/-- The catch-block of `sendRequest`: timeout, HTTP-error (unreachable under
`validateStatus: () => true`), no-response, and generic branches, all
surfaced as `NetworkError`. -/
def classifyTransportFailure (timeout : Int) (method url : String)
    (f : TransportFailure) : JsError :=
  if f.code = some "ECONNABORTED" ∨ strIncludes f.message "timeout" then
    JsError.network ("Request timeout after " ++ toString timeout ++ "ms: " ++
      method ++ " " ++ url)
  else
    match f.response with
    | some (st, stext) =>
        JsError.network ("HTTP " ++ toString st ++ ": " ++ stext)
    | none =>
        if f.hasRequest then
          JsError.network ("Unable to reach " ++ url ++ ". " ++ f.message)
        else
          JsError.network ("Request failed: " ++ f.message)

/-- `sendRequest(config)`: validate and normalize, dispatch through the
transport, and either return the normalized response (any status code) or
map the transport failure onto a `NetworkError`. -/
def sendRequest (transport : AxiosConfig → TransportOutcome) (elapsedMs : Nat)
    (config : Option HttpConfig) : Except JsError HttpResponse :=
  match resolveAxiosConfig config with
  | Except.error e => Except.error e
  | Except.ok ac =>
      match transport ac with
      | TransportOutcome.response st stext hs d =>
          Except.ok ⟨st, stext, hs, d, elapsedMs⟩
      | TransportOutcome.failure f =>
          Except.error (classifyTransportFailure ac.timeout ac.method ac.url f)

end ApiEx

namespace ApiEx

/-! ## Template interpolator (src/core/env.js, final revision, lines 136-217)

`PLACEHOLDER_REGEX` is `/{{\s*([^{}\s]+)\s*}}/g` and the replacement is done
by `String.prototype.replace`, i.e. repeated leftmost matching.  For this
regex, greedy matching with backtracking coincides with maximal-munch
scanning: after the maximal `[^{}\s]+` run and maximal `\s*`, the next two
characters must be `}}`; giving any quantifier fewer characters leaves a
whitespace or key character where `}` is required, so backtracking can never
turn a failure into a success.  The scanner below therefore tries a match at
every position, replaces on success and copies one character on failure —
exactly the `/g` replace loop (no zero-width matches arise: a match is at
least five characters). -/

/-- `[^{}\s]` — a character allowed inside a placeholder key. -/
def isKeyChar (c : Char) : Bool :=
  ¬ (c = '{' ∨ c = '}' ∨ isSpaceJs c)

structure PlaceholderMatch : Type where
  key : List Char
  ws1 : List Char
  ws2 : List Char
  rest : List Char
deriving Repr, DecidableEq

/-- Attempt to match `{{\s*([^{}\s]+)\s*}}` at the head of the input,
returning the captured key, the matched whitespace (needed to reproduce the
full match text when the key is unknown) and the remaining input. -/
def matchPlaceholder : List Char → Option PlaceholderMatch
  | '{' :: '{' :: cs =>
      if ((cs.dropWhile isSpaceJs).takeWhile isKeyChar).isEmpty then
        none
      else
        match ((cs.dropWhile isSpaceJs).dropWhile isKeyChar).dropWhile isSpaceJs with
        | '}' :: '}' :: rest =>
            some
              { key := (cs.dropWhile isSpaceJs).takeWhile isKeyChar
                ws1 := cs.takeWhile isSpaceJs
                ws2 := ((cs.dropWhile isSpaceJs).dropWhile isKeyChar).takeWhile isSpaceJs
                rest := rest }
        | _ => none
  | _ => none

theorem length_dropWhile_le_self {α : Type} (p : α → Bool) (l : List α) :
    (l.dropWhile p).length ≤ l.length := by
  induction l with
  | nil => simp [List.dropWhile]
  | cons a t ih =>
      rw [List.dropWhile_cons]
      split
      · exact Nat.le_succ_of_le ih
      · exact Nat.le_refl _

theorem matchPlaceholder_rest_lt (l : List Char) (m : PlaceholderMatch)
    (h : matchPlaceholder l = some m) : m.rest.length < l.length := by
  unfold matchPlaceholder at h
  split at h
  · rename_i cs
    split at h
    · exact absurd h (by simp)
    · split at h
      · rename_i rest heq
        have hm : m.rest = rest := by
          cases h.symm
          rfl
        have h1 : (((cs.dropWhile isSpaceJs).dropWhile isKeyChar).dropWhile
            isSpaceJs).length ≤ cs.length := by
          calc (((cs.dropWhile isSpaceJs).dropWhile isKeyChar).dropWhile
                isSpaceJs).length
              ≤ ((cs.dropWhile isSpaceJs).dropWhile isKeyChar).length :=
                length_dropWhile_le_self _ _
            _ ≤ (cs.dropWhile isSpaceJs).length := length_dropWhile_le_self _ _
            _ ≤ cs.length := length_dropWhile_le_self _ _
        rw [heq] at h1
        simp only [List.length_cons, hm]
        simp only [List.length_cons] at h1
        omega
      · exact absurd h (by simp)
  · exact absurd h (by simp)

/-- The per-match replacement: a key the variable mapping owns substitutes
to its string-coerced value (`null`, modelled `none`, becomes the empty
string); an unknown key reproduces the full matched text unchanged (and the
source logs a `console.warn`, a side effect with no bearing on the result). -/
def replacementFor (env : List (String × Option String)) (m : PlaceholderMatch) :
    List Char :=
  match assocGet env (String.mk m.key) with
  | some (some v) => v.data
  | some none => []
  | none => '{' :: '{' :: (m.ws1 ++ m.key ++ m.ws2 ++ ['}', '}'])

/-- The `/g` replace loop of `interpolate`.  Each iteration consumes at
least one character (`matchPlaceholder_rest_lt`), so fuel equal to the input
length always suffices; `interpolateChars_fuel_irrelevant` below certifies
that the result does not depend on the exact fuel in that regime. -/
def interpolateChars (env : List (String × Option String)) :
    Nat → List Char → List Char
  | _, [] => []
  | 0, _ :: _ => []
  | fuel + 1, c :: cs =>
      match matchPlaceholder (c :: cs) with
      | some m => replacementFor env m ++ interpolateChars env fuel m.rest
      | none => c :: interpolateChars env fuel cs

theorem interpolateChars_fuel_irrelevant (env : List (String × Option String)) :
    ∀ (n fuel fuel2 : Nat) (l : List Char), l.length ≤ n → l.length ≤ fuel →
      l.length ≤ fuel2 →
      interpolateChars env fuel l = interpolateChars env fuel2 l := by
  intro n
  induction n with
  | zero =>
      intro fuel fuel2 l hn _ _
      have hl : l = [] := List.eq_nil_of_length_eq_zero (Nat.le_zero.mp hn)
      subst hl
      cases fuel <;> cases fuel2 <;> rfl
  | succ n ih =>
      intro fuel fuel2 l hn hf hf2
      match l with
      | [] => cases fuel <;> cases fuel2 <;> rfl
      | c :: cs =>
          match fuel, hf with
          | f + 1, hf =>
              match fuel2, hf2 with
              | f2 + 1, hf2 =>
                  simp only [List.length_cons] at hn hf hf2
                  show (match matchPlaceholder (c :: cs) with
                    | some m => replacementFor env m ++ interpolateChars env f m.rest
                    | none => c :: interpolateChars env f cs) =
                    (match matchPlaceholder (c :: cs) with
                    | some m => replacementFor env m ++ interpolateChars env f2 m.rest
                    | none => c :: interpolateChars env f2 cs)
                  cases hm : matchPlaceholder (c :: cs) with
                  | some m =>
                      have hrest := matchPlaceholder_rest_lt (c :: cs) m hm
                      simp only [List.length_cons] at hrest
                      dsimp only
                      rw [ih f f2 m.rest (by omega) (by omega) (by omega)]
                  | none =>
                      dsimp only
                      rw [ih f f2 cs (by omega) (by omega) (by omega)]

/-- `interpolate(templateString, env)` (src/core/env.js lines 137-158): the
fast path returns the input unchanged when it contains no `{{`; otherwise
every placeholder occurrence is resolved independently.  The function has no
error outcome. -/
def hasDoubleOpen : List Char → Bool
  | '{' :: '{' :: _ => true
  | _ :: cs => hasDoubleOpen cs
  | [] => false

def interpolate (templateString : String)
    (env : List (String × Option String)) : String :=
  if hasDoubleOpen templateString.data then
    String.mk (interpolateChars env templateString.data.length templateString.data)
  else
    templateString

/-- `request.headers` is either an array of raw `"Key: Value"` strings or an
object mapping header name to value. -/
inductive JsHeaders : Type where
  | arr : List String → JsHeaders
  | obj : List (String × String) → JsHeaders
deriving Repr, DecidableEq

/-- The request object interpolateRequest receives (string-valued fields;
absent fields are `none`). -/
structure JsRequest : Type where
  method : Option String := none
  url : Option String := none
  headers : Option JsHeaders := none
  body : Option String := none
  data : Option String := none
deriving Repr, DecidableEq

/-- `interpolateRequest(request, env)` (src/core/env.js lines 163-217): a
shallow copy whose `url`, `body` and `data` are interpolated when present,
and whose headers have every value (array element or object value)
interpolated while header names are untouched.  The input is never mutated
— in this embedding every function is pure by construction. -/
def interpolateRequest (request : JsRequest)
    (env : List (String × Option String)) : JsRequest :=
  { request with
    url := request.url.map (fun u => interpolate u env)
    headers := request.headers.map (fun h =>
      match h with
      | JsHeaders.arr items => JsHeaders.arr (items.map (fun s => interpolate s env))
      | JsHeaders.obj fields =>
          JsHeaders.obj (fields.map (fun p => (p.1, interpolate p.2 env))))
    body := request.body.map (fun b => interpolate b env)
    data := request.data.map (fun d => interpolate d env) }

end ApiEx

namespace ApiEx

/-! ## Supporting lemmas -/

theorem runAppends_loop_length {α : Type} (calls : List (Nat × α)) :
    ∀ (acc : List (TimedEntry α)),
      (calls.foldl (fun h c => appendEntry c.1 c.2 h) acc).length =
        acc.length + calls.length := by
  induction calls with
  | nil => intro acc; simp
  | cons c t ih =>
      intro acc
      simp only [List.foldl_cons, List.length_cons]
      rw [ih]
      simp [appendEntry]
      omega

theorem runAppends_length {α : Type} (calls : List (Nat × α)) :
    (runAppends calls).length = calls.length := by
  have := runAppends_loop_length calls []
  simpa [runAppends] using this

theorem splitDotChars_ne_nil (l : List Char) : splitDotChars l ≠ [] := by
  induction l with
  | nil => simp [splitDotChars]
  | cons c cs ih =>
      simp only [splitDotChars]
      split
      · simp
      · match h : splitDotChars cs with
        | [] => exact absurd h ih
        | h0 :: t0 => simp

theorem splitDotChars_no_dot (l : List Char) (h : '.' ∉ l) :
    splitDotChars l = [l] := by
  induction l with
  | nil => rfl
  | cons c cs ih =>
      have hc : ¬ c = '.' := fun hc => h (by simp [hc])
      have hcs : '.' ∉ cs := fun hm => h (List.mem_cons_of_mem c hm)
      simp only [splitDotChars, hc, if_false]
      rw [ih hcs]

theorem splitDot_no_dot (s : String) (h : '.' ∉ s.data) : splitDot s = [s] := by
  simp [splitDot, splitDotChars_no_dot s.data h]

theorem splitDotChars_head_no_dot (l : List Char) :
    ∀ h t, splitDotChars l = h :: t → '.' ∉ h := by
  induction l with
  | nil =>
      intro h t he
      simp only [splitDotChars] at he
      cases he
      simp
  | cons c cs ih =>
      intro h t he
      by_cases hc : c = '.'
      · simp only [splitDotChars, hc, if_true] at he
        cases he
        simp
      · simp only [splitDotChars, hc, if_false] at he
        cases hcs : splitDotChars cs with
        | nil => exact absurd hcs (splitDotChars_ne_nil cs)
        | cons h0 t0 =>
            rw [hcs] at he
            injection he with he1 he2
            subst he1
            intro hm
            rcases List.mem_cons.mp hm with hm | hm
            · exact hc hm.symm
            · exact ih h0 t0 hcs hm

theorem splitDotChars_dot_long (l : List Char) (h : '.' ∈ l) :
    2 ≤ (splitDotChars l).length := by
  induction l with
  | nil => simp at h
  | cons c cs ih =>
      by_cases hc : c = '.'
      · simp only [splitDotChars, hc, if_true, List.length_cons]
        have := splitDotChars_ne_nil cs
        have : 1 ≤ (splitDotChars cs).length := by
          cases hcs : splitDotChars cs with
          | nil => exact absurd hcs (splitDotChars_ne_nil cs)
          | cons a b => simp
        omega
      · have hcs : '.' ∈ cs := by
          rcases List.mem_cons.mp h with hm | hm
          · exact absurd hm.symm hc
          · exact hm
        have h2 := ih hcs
        simp only [splitDotChars, hc, if_false]
        cases hsp : splitDotChars cs with
        | nil => exact absurd hsp (splitDotChars_ne_nil cs)
        | cons h0 t0 =>
            rw [hsp] at h2
            simpa using h2

theorem takeWhile_append_stop (p : Char → Bool) (l tl : List Char) (a : Char)
    (hl : ∀ c ∈ l, p c = true) (ha : p a = false) :
    (l ++ a :: tl).takeWhile p = l := by
  induction l with
  | nil => simp [List.takeWhile_cons, ha]
  | cons c cs ih =>
      have hc : p c = true := hl c (List.mem_cons_self c cs)
      have ih2 := ih (fun x hx => hl x (List.mem_cons_of_mem c hx))
      simp [List.cons_append, List.takeWhile_cons, hc, ih2]

theorem dropWhile_append_stop (p : Char → Bool) (l tl : List Char) (a : Char)
    (hl : ∀ c ∈ l, p c = true) (ha : p a = false) :
    (l ++ a :: tl).dropWhile p = a :: tl := by
  induction l with
  | nil => simp [List.dropWhile_cons, ha]
  | cons c cs ih =>
      have hc : p c = true := hl c (List.mem_cons_self c cs)
      have ih2 := ih (fun x hx => hl x (List.mem_cons_of_mem c hx))
      simp [List.cons_append, List.dropWhile_cons, hc, ih2]

theorem assocGet_assocRemove_self {α : Type} (l : List (String × α))
    (k : String) : assocGet (assocRemove l k) k = none := by
  induction l with
  | nil => rfl
  | cons hd tl ih =>
      by_cases h : hd.1 = k
      · simpa [assocRemove, List.filter_cons, h] using ih
      · simpa [assocRemove, List.filter_cons, h, assocGet] using ih

theorem assocGet_none_of_key_not_mem {α : Type} (l : List (String × α))
    (k : String) (h : k ∉ l.map Prod.fst) : assocGet l k = none := by
  induction l with
  | nil => rfl
  | cons q qs ih =>
      simp only [List.map_cons, List.mem_cons] at h
      push_neg at h
      have hq : ¬ q.1 = k := fun he => h.1 he.symm
      simp [assocGet, hq, ih h.2]

theorem jsAssign_get (target source : List (String × FieldVal)) (k : String)
    (h : (source.map Prod.fst).Nodup) :
    assocGet (jsAssign target source) k =
      match assocGet source k with
      | some v => some v
      | none => assocGet target k := by
  induction source generalizing target with
  | nil => simp [jsAssign, assocGet]
  | cons p rest ih =>
      simp only [List.map_cons, List.nodup_cons] at h
      have hrest := ih (assocSet target p.1 p.2) h.2
      simp only [jsAssign, List.foldl_cons] at hrest ⊢
      rw [hrest]
      by_cases hk : p.1 = k
      · subst hk
        have hnone : assocGet rest p.1 = none :=
          assocGet_none_of_key_not_mem rest p.1 h.1
        simp [assocGet, hnone, assocGet_assocSet_self]
      · rw [assocGet_assocSet_ne target k p.1 p.2 hk]
        simp only [assocGet, hk, if_false]

theorem saveRequestList_replace (pre post : List (List (String × FieldVal)))
    (old t : List (String × FieldVal))
    (hpre : ∀ r ∈ pre,
      jsStrictEqField (assocGet r "name") (assocGet t "name") = false)
    (hold : jsStrictEqField (assocGet old "name") (assocGet t "name") = true) :
    saveRequestList (pre ++ old :: post) t = pre ++ jsAssign old t :: post := by
  induction pre with
  | nil => simp [saveRequestList, hold]
  | cons r rest ih =>
      have hr := hpre r (List.mem_cons_self r rest)
      have ih2 := ih (fun x hx => hpre x (List.mem_cons_of_mem r hx))
      simp only [List.cons_append, saveRequestList, hr, Bool.false_eq_true,
        if_false]
      exact congrArg (fun l => r :: l) ih2

theorem saveRequestList_push (reqs : List (List (String × FieldVal)))
    (t : List (String × FieldVal))
    (h : ∀ r ∈ reqs,
      jsStrictEqField (assocGet r "name") (assocGet t "name") = false) :
    saveRequestList reqs t = reqs ++ [t] := by
  induction reqs with
  | nil => rfl
  | cons r rest ih =>
      have hr := h r (List.mem_cons_self r rest)
      have ih2 := ih (fun x hx => h x (List.mem_cons_of_mem r hx))
      simp only [saveRequestList, hr, Bool.false_eq_true, if_false,
        List.cons_append]
      exact congrArg (fun l => r :: l) ih2

end ApiEx

namespace ApiEx

/-! ## Claim theorems -/

/-- C1: the spec asserts the history ledger is capped at 100 entries with
FIFO eviction on overflow, and that 150 appends leave exactly 100 entries
retrievable under `query({limit:200})`.  The code has no cap anywhere on
the write path (`recordHistory` only pushes) nor on the read path, so after
150 appends all 150 entries are stored and all 150 come back with limit
200 — the persisted collection reaches 150 entries, violating the claimed
invariant at this input. -/
theorem history_cap_violated_at_150 :
    (runAppends ((List.range 150).map (fun i => (i, i)))).length = 150 ∧
    (getHistory (some 200)
      (runAppends ((List.range 150).map (fun i => (i, i))))).length = 150 ∧
    ¬ (runAppends ((List.range 150).map (fun i => (i, i)))).length ≤ 100 := by
  have h1 : (runAppends ((List.range 150).map (fun i => (i, i)))).length = 150 := by
    rw [runAppends_length]
    simp
  refine ⟨h1, ?_, by omega⟩
  show ((sortByTsDesc _).take 200).length = 150
  rw [List.length_take, length_sortByTsDesc, h1]
  decide

/-- C5: `getHistory` returns entries sorted by timestamp descending, uses
limit 10 when no limit is given, returns an empty sequence for limit 0,
returns all stored entries (as a permutation into sorted order) when the
limit reaches the stored count, and entries sharing a timestamp keep their
relative insertion order. -/
theorem getHistory_query_contract {α : Type} (h : List (TimedEntry α)) (n : Nat) :
    getHistory none h = getHistory (some 10) h ∧
    getHistory (some 0) h = [] ∧
    (getHistory (some n) h).Pairwise (fun x y => y.timestamp ≤ x.timestamp) ∧
    (h.length ≤ n → (getHistory (some n) h).Perm h) ∧
    (h.length ≤ n → ∀ ts : Nat,
      (getHistory (some n) h).filter (fun e => e.timestamp = ts) =
        h.filter (fun e => e.timestamp = ts)) := by
  have hfull : h.length ≤ n → getHistory (some n) h = sortByTsDesc h := by
    intro hn
    show (sortByTsDesc h).take n = sortByTsDesc h
    exact List.take_of_length_le (by rw [length_sortByTsDesc]; exact hn)
  refine ⟨rfl, by simp [getHistory], ?_, ?_, ?_⟩
  · exact List.Pairwise.sublist (List.take_sublist _ _) (sortByTsDesc_pairwise h)
  · intro hn
    rw [hfull hn]
    exact sortByTsDesc_perm h
  · intro hn ts
    rw [hfull hn]
    exact sortByTsDesc_stable h ts

/-- Witness for C5 at a concrete two-entry history. -/
theorem getHistory_query_contract_witness :
    (getHistory (some 5) [(⟨3, 0⟩ : TimedEntry Nat), ⟨7, 1⟩]).Perm
      [⟨3, 0⟩, ⟨7, 1⟩] ∧
    getHistory (some 0) [(⟨3, 0⟩ : TimedEntry Nat), ⟨7, 1⟩] = [] ∧
    (getHistory (some 5) [(⟨4, 0⟩ : TimedEntry Nat), ⟨4, 1⟩]).filter
        (fun e => e.timestamp = 4) =
      [⟨4, 0⟩, ⟨4, 1⟩] := by
  have h1 := getHistory_query_contract [(⟨3, 0⟩ : TimedEntry Nat), ⟨7, 1⟩] 5
  have h2 := getHistory_query_contract [(⟨4, 0⟩ : TimedEntry Nat), ⟨4, 1⟩] 5
  refine ⟨h1.2.2.2.1 (by decide), h1.2.1, ?_⟩
  rw [h2.2.2.2.2 (by decide) 4]
  decide

/-- C2 counterexample: `saveRequest` uses the lodash `assign` merge, so a
field of the previously stored template that is absent from the new one
(`data` here) survives the save — the replacement is not wholesale. -/
theorem saveRequest_merge_counterexample :
    getRequests (saveRequest (saveRequest initialStore
        [("name", FieldVal.str "a"), ("method", FieldVal.str "GET"),
          ("url", FieldVal.str "u"), ("data", FieldVal.str "old")])
        [("name", FieldVal.str "a"), ("method", FieldVal.str "POST"),
          ("url", FieldVal.str "v")]) =
      [[("name", FieldVal.str "a"), ("method", FieldVal.str "POST"),
        ("url", FieldVal.str "v"), ("data", FieldVal.str "old")]] ∧
    assocGet [("name", FieldVal.str "a"), ("method", FieldVal.str "POST"),
        ("url", FieldVal.str "v")] "data" = none ∧
    assocGet [("name", FieldVal.str "a"), ("method", FieldVal.str "POST"),
        ("url", FieldVal.str "v"), ("data", FieldVal.str "old")] "data" =
      some (FieldVal.str "old") := by
  refine ⟨?_, rfl, ?_⟩ <;> decide

/-- C2 as amended: saving under an existing name keeps exactly one stored
entry under that name, and that entry is the `Object.assign` merge of the
old entry with the new template — every field of the new template wins,
while old fields absent from it survive.  (With a template carrying every
field, as the save command always produces, this coincides with wholesale
replacement.) -/
theorem saveRequest_upsert_assign_merge (ds : DataStore)
    (pre post : List (List (String × FieldVal)))
    (old t : List (String × FieldVal)) (nm : String)
    (hds : ds.requests = pre ++ old :: post)
    (hNodup : (t.map Prod.fst).Nodup)
    (hname : assocGet t "name" = some (FieldVal.str nm))
    (hpre : ∀ r ∈ pre,
      jsStrictEqField (assocGet r "name") (assocGet t "name") = false)
    (hold : jsStrictEqField (assocGet old "name") (assocGet t "name") = true)
    (hpost : ∀ r ∈ post,
      jsStrictEqField (assocGet r "name") (assocGet t "name") = false) :
    getRequests (saveRequest ds t) = pre ++ jsAssign old t :: post ∧
    (∀ k v, assocGet t k = some v → assocGet (jsAssign old t) k = some v) ∧
    (∀ k v, assocGet t k = none → assocGet old k = some v →
      assocGet (jsAssign old t) k = some v) ∧
    (getRequests (saveRequest ds t)).countP
      (fun r => jsStrictEqField (assocGet r "name") (assocGet t "name")) = 1 := by
  have hmain : getRequests (saveRequest ds t) = pre ++ jsAssign old t :: post := by
    show saveRequestList ds.requests t = _
    rw [hds]
    exact saveRequestList_replace pre post old t hpre hold
  have hwin : ∀ k v, assocGet t k = some v → assocGet (jsAssign old t) k = some v := by
    intro k v hv
    rw [jsAssign_get old t k hNodup, hv]
  have hsurvive : ∀ k v, assocGet t k = none → assocGet old k = some v →
      assocGet (jsAssign old t) k = some v := by
    intro k v hnone hold2
    rw [jsAssign_get old t k hNodup, hnone, hold2]
  refine ⟨hmain, hwin, hsurvive, ?_⟩
  rw [hmain, List.countP_append, List.countP_cons]
  have hmerged : jsStrictEqField (assocGet (jsAssign old t) "name")
      (assocGet t "name") = true := by
    rw [hwin "name" (FieldVal.str nm) hname, hname]
    simp [jsStrictEqField]
  have hpre0 : pre.countP
      (fun r => jsStrictEqField (assocGet r "name") (assocGet t "name")) = 0 :=
    List.countP_eq_zero.mpr (by
      intro r hr
      simp [hpre r hr])
  have hpost0 : post.countP
      (fun r => jsStrictEqField (assocGet r "name") (assocGet t "name")) = 0 :=
    List.countP_eq_zero.mpr (by
      intro r hr
      simp [hpost r hr])
  rw [hpre0, hpost0, hmerged]
  simp

/-- Witness for the amended C2 at the counterexample input. -/
theorem saveRequest_upsert_assign_merge_witness :
    getRequests (saveRequest (saveRequest initialStore
        [("name", FieldVal.str "a"), ("method", FieldVal.str "GET"),
          ("url", FieldVal.str "u"), ("data", FieldVal.str "old")])
        [("name", FieldVal.str "a"), ("method", FieldVal.str "POST"),
          ("url", FieldVal.str "v")]) =
      [jsAssign [("name", FieldVal.str "a"), ("method", FieldVal.str "GET"),
          ("url", FieldVal.str "u"), ("data", FieldVal.str "old")]
        [("name", FieldVal.str "a"), ("method", FieldVal.str "POST"),
          ("url", FieldVal.str "v")]] :=
  (saveRequest_upsert_assign_merge
    (saveRequest initialStore
      [("name", FieldVal.str "a"), ("method", FieldVal.str "GET"),
        ("url", FieldVal.str "u"), ("data", FieldVal.str "old")])
    [] []
    [("name", FieldVal.str "a"), ("method", FieldVal.str "GET"),
      ("url", FieldVal.str "u"), ("data", FieldVal.str "old")]
    [("name", FieldVal.str "a"), ("method", FieldVal.str "POST"),
      ("url", FieldVal.str "v")]
    "a" rfl (by decide) rfl (by intro r hr; simp at hr) (by decide)
    (by intro r hr; simp at hr)).1

/-- C3: re-saving an environment under the same (dot-free) name fully
replaces the stored variable mapping — the entry under the name is exactly
the second mapping, so keys of the first mapping absent from the second are
gone. -/
theorem saveEnvironment_full_replacement (ds : DataStore)
    (fs : List (String × Json)) (n : String) (v1 v2 : Json)
    (hds : ds.environments = Json.obj fs) (hn : '.' ∉ n.data) :
    envLookup (getEnvironments
        (saveEnvironment (saveEnvironment ds n v1) n v2)) n = some v2 := by
  have hsplit := splitDot_no_dot n hn
  show envLookup (jsonSet (jsonSet ds.environments (splitDot n) v1) (splitDot n) v2) n
    = some v2
  rw [hsplit, hds]
  show envLookup (jsonSet (Json.obj (assocSet fs n v1)) [n] v2) n = some v2
  show envLookup (Json.obj (assocSet (assocSet fs n v1) n v2)) n = some v2
  exact assocGet_assocSet_self _ n v2

/-- Witness for C3: the spec example — `dev={A:1,B:2}` re-saved as
`dev={C:3}` yields exactly `{C:3}`. -/
theorem saveEnvironment_full_replacement_witness :
    envLookup (getEnvironments (saveEnvironment (saveEnvironment initialStore
        "dev" (Json.obj [("A", Json.str "1"), ("B", Json.str "2")])) "dev"
        (Json.obj [("C", Json.str "3")]))) "dev" =
      some (Json.obj [("C", Json.str "3")]) :=
  saveEnvironment_full_replacement initialStore [] "dev"
    (Json.obj [("A", Json.str "1"), ("B", Json.str "2")])
    (Json.obj [("C", Json.str "3")]) rfl (by decide)

end ApiEx

namespace ApiEx

/-- C4: with the transport configured by `validateStatus: () => true`, every
HTTP status the transport returns — 404 included — comes back from
`sendRequest` as a normal ok response carrying that status, and an error is
raised only when the transport itself failed (the config checks having
passed). -/
theorem sendRequest_status_not_failure (cfg : HttpConfig) (elapsed : Nat)
    (st : Int) (stext : String) (hdrs : List (String × String)) (d : String)
    (hm : jsFalsyStr cfg.method = false) (hu : jsFalsyStr cfg.url = false) :
    sendRequest (fun _ => TransportOutcome.response st stext hdrs d) elapsed
      (some cfg) = Except.ok ⟨st, stext, hdrs, d, elapsed⟩ ∧
    (∀ (transport : AxiosConfig → TransportOutcome) (e : JsError),
      sendRequest transport elapsed (some cfg) = Except.error e →
      ∃ ac f, resolveAxiosConfig (some cfg) = Except.ok ac ∧
        transport ac = TransportOutcome.failure f ∧
        e = classifyTransportFailure ac.timeout ac.method ac.url f) := by
  have hres : resolveAxiosConfig (some cfg) = Except.ok
      { method := cfg.method.getD ""
        url := cfg.url.getD ""
        headers := addDefaultContentType (cfg.headers.getD []) cfg.data
        data := cfg.data
        timeout := resolveTimeout cfg.timeout } := by
    simp [resolveAxiosConfig, hm, hu]
  obtain ⟨ac, hac⟩ : ∃ ac, resolveAxiosConfig (some cfg) = Except.ok ac :=
    ⟨_, hres⟩
  constructor
  · simp [sendRequest, hac]
  · intro transport e he
    simp only [sendRequest, hac] at he
    cases ht : transport ac with
    | response st2 stext2 hs2 d2 =>
        rw [ht] at he
        exact absurd he (by simp)
    | failure f =>
        rw [ht] at he
        refine ⟨ac, f, hac, ht, ?_⟩
        simpa using he.symm

/-- Witness for C4: a transport stub answering 404 yields
`Response(status=404)`, not a thrown failure. -/
theorem sendRequest_status_not_failure_witness :
    sendRequest (fun _ => TransportOutcome.response 404 "Not Found" [] "gone") 12
      (some { method := some "GET", url := some "http://x" }) =
      Except.ok ⟨404, "Not Found", [], "gone", 12⟩ :=
  (sendRequest_status_not_failure { method := some "GET", url := some "http://x" }
    12 404 "Not Found" [] "gone" (by decide) (by decide)).1

/-- C7 counterexample: a timeout that is not a positive integer does NOT
cause the call to be rejected before dispatch — `sendRequest` only computes
`config.timeout || 30000`, so the negative timeout `-5` flows into the
dispatched axios config unchanged and the dispatch proceeds normally. -/
theorem sendRequest_timeout_not_validated_counterexample :
    resolveAxiosConfig
        (some { method := some "GET", url := some "http://x", timeout := some (-5) }) =
      Except.ok { method := "GET", url := "http://x", headers := [], data := none, timeout := -5 } ∧
    sendRequest (fun _ => TransportOutcome.response 200 "OK" [] "") 7
        (some { method := some "GET", url := some "http://x", timeout := some (-5) }) =
      Except.ok { status := 200, statusText := "OK", headers := [], data := "", durationMs := 7 } := by
  constructor <;> rfl

/-- C7 as amended: an absent (or zero, the only falsy number) timeout is
defaulted to 30000 ms; any other supplied value — arbitrarily large, or even
negative or otherwise non-positive — reaches the dispatched config unchanged,
because `sendRequest` itself performs no bound or positivity check on the
timeout (rejection of non-positive values is done by the caller-side
`validateTimeout`, outside this component). -/
theorem sendRequest_timeout_defaulting (cfg : HttpConfig)
    (hm : jsFalsyStr cfg.method = false) (hu : jsFalsyStr cfg.url = false) :
    (cfg.timeout = none ∨ cfg.timeout = some 0 →
      ∃ ac, resolveAxiosConfig (some cfg) = Except.ok ac ∧ ac.timeout = 30000) ∧
    (∀ t : Int, cfg.timeout = some t → t ≠ 0 →
      ∃ ac, resolveAxiosConfig (some cfg) = Except.ok ac ∧ ac.timeout = t) := by
  have hres : resolveAxiosConfig (some cfg) = Except.ok
      { method := cfg.method.getD ""
        url := cfg.url.getD ""
        headers := addDefaultContentType (cfg.headers.getD []) cfg.data
        data := cfg.data
        timeout := resolveTimeout cfg.timeout } := by
    simp [resolveAxiosConfig, hm, hu]
  constructor
  · intro ht
    refine ⟨_, hres, ?_⟩
    rcases ht with ht | ht <;> simp [resolveTimeout, ht]
  · intro t ht hnz
    refine ⟨_, hres, ?_⟩
    simp [resolveTimeout, ht, hnz]

/-- Witness for the amended C7: no timeout gives 30000; a 900000 ms timeout
(far beyond the caller-side 600000 cap) is dispatched unchanged. -/
theorem sendRequest_timeout_defaulting_witness :
    (∃ ac, resolveAxiosConfig (some { method := some "GET", url := some "http://x" }) =
        Except.ok ac ∧ ac.timeout = 30000) ∧
    (∃ ac, resolveAxiosConfig
          (some { method := some "GET", url := some "http://x", timeout := some 900000 }) =
        Except.ok ac ∧ ac.timeout = 900000) := by
  constructor
  · exact (sendRequest_timeout_defaulting
      { method := some "GET", url := some "http://x" } (by decide) (by decide)).1
      (Or.inl rfl)
  · exact (sendRequest_timeout_defaulting
      { method := some "GET", url := some "http://x", timeout := some 900000 }
      (by decide) (by decide)).2 900000 rfl (by decide)

/-- Distinguishes a plain `new Error(...)` from the typed `ApiExError`
subclasses of errors.js. -/
def isPlainJsError : JsError → Bool
  | JsError.error _ => true
  | _ => false

/-- C8 counterexample: removing an absent environment throws a plain
`Error` — the codebase defines no `NotFoundError` class at all, so the
failure is not a distinctly typed absence error. -/
theorem removeEnvironment_plain_error_counterexample :
    removeEnvironment initialStore "missing" =
      Except.error (JsError.error "Environment \x27missing\x27 does not exist") ∧
    isPlainJsError (JsError.error "Environment \x27missing\x27 does not exist") =
      true := by
  exact ⟨rfl, rfl⟩

/-- C8 as amended: for an absent (falsy) name `removeEnvironment` fails with
a plain generic `Error` whose message names the environment (there is no
`NotFoundError` type in the code); for a present dot-free name it removes
that environment's entry. -/
theorem removeEnvironment_behavior (ds : DataStore)
    (fs : List (String × Json)) (n : String)
    (hds : ds.environments = Json.obj fs) (hn : '.' ∉ n.data) :
    (jsTruthy (envLookup ds.environments n) = false →
      removeEnvironment ds n = Except.error (JsError.error
        ("Environment \x27" ++ n ++ "\x27 does not exist"))) ∧
    (jsTruthy (envLookup ds.environments n) = true →
      ∃ ds2, removeEnvironment ds n = Except.ok ds2 ∧
        envLookup ds2.environments n = none) := by
  constructor
  · intro hfalse
    simp [removeEnvironment, hfalse]
  · intro htrue
    refine ⟨{ ds with environments := jsonUnset ds.environments (splitDot n) },
      ?_, ?_⟩
    · simp [removeEnvironment, htrue]
    · show envLookup (jsonUnset ds.environments (splitDot n)) n = none
      rw [hds, splitDot_no_dot n hn]
      simp only [jsonUnset, envLookup]
      exact assocGet_assocRemove_self fs n

/-- Witness for the amended C8: removing a present environment deletes its
entry. -/
theorem removeEnvironment_behavior_witness :
    ∃ ds2, removeEnvironment (saveEnvironment initialStore "dev"
        (Json.obj [("A", Json.str "1")])) "dev" = Except.ok ds2 ∧
      envLookup ds2.environments "dev" = none :=
  (removeEnvironment_behavior
    (saveEnvironment initialStore "dev" (Json.obj [("A", Json.str "1")]))
    [("dev", Json.obj [("A", Json.str "1")])] "dev" rfl (by decide)).2 rfl

end ApiEx

namespace ApiEx

theorem interpolateChars_nil (env : List (String × Option String)) (fuel : Nat) :
    interpolateChars env fuel [] = [] := by
  cases fuel <;> rfl

theorem interpolateChars_step (env : List (String × Option String))
    (fuel : Nat) (c : Char) (cs : List Char) :
    interpolateChars env (fuel + 1) (c :: cs) =
      match matchPlaceholder (c :: cs) with
      | some m => replacementFor env m ++ interpolateChars env fuel m.rest
      | none => c :: interpolateChars env fuel cs := rfl

theorem isKeyChar_not_space (c : Char) (h : isKeyChar c = true) :
    isSpaceJs c = false := by
  simp only [isKeyChar, decide_eq_true_eq] at h
  cases hs : isSpaceJs c
  · rfl
  · exact absurd (Or.inr (Or.inr hs)) h

/-- A whole-placeholder string `{{` ++ key ++ `}}` with a nonempty all-key
characters key matches with no surrounding whitespace and no remainder. -/
theorem matchPlaceholder_wrap (k : List Char) (hk : k ≠ [])
    (hkc : ∀ c ∈ k, isKeyChar c = true) :
    matchPlaceholder ('{' :: '{' :: (k ++ ['}', '}'])) =
      some ⟨k, [], [], []⟩ := by
  obtain ⟨c0, krest, rfl⟩ : ∃ c0 krest, k = c0 :: krest := by
    cases k with
    | nil => exact absurd rfl hk
    | cons a b => exact ⟨a, b, rfl⟩
  have hc0 := hkc c0 (List.mem_cons_self c0 krest)
  have hnospace : isSpaceJs c0 = false := isKeyChar_not_space c0 hc0
  have hdropSpace : ((c0 :: krest) ++ ['}', '}']).dropWhile isSpaceJs =
      (c0 :: krest) ++ ['}', '}'] := by
    simp [List.dropWhile_cons, hnospace]
  have htakeSpace : ((c0 :: krest) ++ ['}', '}']).takeWhile isSpaceJs = [] := by
    simp [List.takeWhile_cons, hnospace]
  have hkey : ((c0 :: krest) ++ ['}', '}']).takeWhile isKeyChar = c0 :: krest :=
    takeWhile_append_stop isKeyChar (c0 :: krest) ['}'] '}' hkc (by decide)
  have hdropKey : ((c0 :: krest) ++ ['}', '}']).dropWhile isKeyChar =
      ['}', '}'] :=
    dropWhile_append_stop isKeyChar (c0 :: krest) ['}'] '}' hkc (by decide)
  have hbrace1 : (['}', '}'] : List Char).dropWhile isSpaceJs = ['}', '}'] := by
    decide
  have hbrace2 : (['}', '}'] : List Char).takeWhile isSpaceJs = [] := by
    decide
  simp only [matchPlaceholder, hdropSpace, htakeSpace, hkey, hdropKey, hbrace1,
    hbrace2]
  simp

end ApiEx

namespace ApiEx

/-- C6: `interpolate` is total (the embedding has no error outcome by
construction); a placeholder whose key the mapping owns is replaced by the
string-coerced value — a `null` value (`none`) becoming the empty string —
while a placeholder with an unknown key is reproduced unchanged; and
`interpolate("{{X}}/{{Y}}", {X:"a"})` returns `"a/{{Y}}"`. -/
theorem interpolate_placeholder_behavior (k : String)
    (env : List (String × Option String)) (hk : k ≠ "")
    (hkc : ∀ c ∈ k.data, isKeyChar c = true) :
    (interpolate ("\x7b\x7b" ++ k ++ "\x7d\x7d") env =
      match assocGet env k with
      | some (some v) => v
      | some none => ""
      | none => "\x7b\x7b" ++ k ++ "\x7d\x7d") ∧
    interpolate "\x7b\x7bX\x7d\x7d/\x7b\x7bY\x7d\x7d" [("X", some "a")] = "a/\x7b\x7bY\x7d\x7d" := by
  refine ⟨?_, by decide⟩
  have hknil : k.data ≠ [] := by
    intro hd
    apply hk
    have hke : k = String.mk k.data := rfl
    rw [hke, hd]
  have hdata : ("\x7b\x7b" ++ k ++ "\x7d\x7d").data = '{' :: '{' :: (k.data ++ ['}', '}']) := by
    have h1 : ("\x7b\x7b" : String).data = ['{', '{'] := rfl
    have h2 : ("\x7d\x7d" : String).data = ['}', '}'] := rfl
    simp [String.data_append, h1, h2]
  have hopen : hasDoubleOpen ("\x7b\x7b" ++ k ++ "\x7d\x7d").data = true := by
    rw [hdata]
    rfl
  have hmatch := matchPlaceholder_wrap k.data hknil hkc
  have hlen : ("\x7b\x7b" ++ k ++ "\x7d\x7d").data.length = k.data.length + 3 + 1 := by
    rw [hdata]
    simp [List.length_append]
  have hfull : ("\x7b\x7b" ++ k ++ "\x7d\x7d") = String.mk ('{' :: '{' :: (k.data ++ ['}', '}'])) := by
    have hke : ("\x7b\x7b" ++ k ++ "\x7d\x7d") = String.mk (("\x7b\x7b" ++ k ++ "\x7d\x7d").data) := rfl
    rw [hke, hdata]
  calc interpolate ("\x7b\x7b" ++ k ++ "\x7d\x7d") env
      = String.mk (interpolateChars env (("\x7b\x7b" ++ k ++ "\x7d\x7d").data.length)
          (("\x7b\x7b" ++ k ++ "\x7d\x7d").data)) := by
        simp only [interpolate, hopen, if_true]
      _ = String.mk (interpolateChars env (k.data.length + 3 + 1)
          ('{' :: '{' :: (k.data ++ ['}', '}']))) := by
        rw [hlen, hdata]
      _ = String.mk (replacementFor env ⟨k.data, [], [], []⟩ ++
          interpolateChars env (k.data.length + 3) []) := by
        rw [interpolateChars_step, hmatch]
      _ = String.mk (replacementFor env ⟨k.data, [], [], []⟩) := by
        rw [interpolateChars_nil, List.append_nil]
      _ = match assocGet env k with
          | some (some v) => v
          | some none => ""
          | none => "\x7b\x7b" ++ k ++ "\x7d\x7d" := by
        have hmk : String.mk k.data = k := rfl
        simp only [replacementFor, hmk]
        cases hv : assocGet env k with
        | none =>
            simp [hfull]
        | some ov =>
            cases ov with
            | none => rfl
            | some v => rfl

/-- Witness for C6: a present key substitutes, `{{X}}/{{Y}}` resolves as the
spec example demands, and a missing key is left unchanged. -/
theorem interpolate_placeholder_behavior_witness :
    interpolate "\x7b\x7bX\x7d\x7d" [("X", some "a")] = "a" ∧
    interpolate "\x7b\x7bX\x7d\x7d/\x7b\x7bY\x7d\x7d" [("X", some "a")] = "a/\x7b\x7bY\x7d\x7d" ∧
    interpolate "\x7b\x7bZ\x7d\x7d" [("X", some "a")] = "\x7b\x7bZ\x7d\x7d" := by
  have hX := interpolate_placeholder_behavior "X" [("X", some "a")]
    (by decide) (by decide)
  have hZ := interpolate_placeholder_behavior "Z" [("X", some "a")]
    (by decide) (by decide)
  refine ⟨?_, hX.2, ?_⟩
  · have h1 := hX.1
    rw [show ("\x7b\x7b" ++ "X" ++ "\x7d\x7d" : String) = "\x7b\x7bX\x7d\x7d" from by decide] at h1
    rw [h1]
    decide
  · have h1 := hZ.1
    rw [show ("\x7b\x7b" ++ "Z" ++ "\x7d\x7d" : String) = "\x7b\x7bZ\x7d\x7d" from by decide] at h1
    rw [h1]
    decide

end ApiEx

namespace ApiEx

/-- C9: `interpolateRequest` substitutes into the url, into every header
value (array element or object value, never a header name) and into the
body (and the axios-compatible `data` alias), passes the method through
untouched, and every field absent on the input request is absent on the
output. -/
theorem interpolateRequest_field_mapping (r : JsRequest)
    (env : List (String × Option String)) :
    (interpolateRequest r env).url = r.url.map (fun u => interpolate u env) ∧
    (interpolateRequest r env).body = r.body.map (fun b => interpolate b env) ∧
    (interpolateRequest r env).data = r.data.map (fun d => interpolate d env) ∧
    (interpolateRequest r env).method = r.method ∧
    (∀ fields, r.headers = some (JsHeaders.obj fields) →
      (interpolateRequest r env).headers = some (JsHeaders.obj
        (fields.map (fun p => (p.1, interpolate p.2 env))))) ∧
    (∀ items, r.headers = some (JsHeaders.arr items) →
      (interpolateRequest r env).headers = some (JsHeaders.arr
        (items.map (fun s => interpolate s env)))) ∧
    (r.url = none → (interpolateRequest r env).url = none) ∧
    (r.headers = none → (interpolateRequest r env).headers = none) ∧
    (r.body = none → (interpolateRequest r env).body = none) := by
  refine ⟨rfl, rfl, rfl, rfl, ?_, ?_, ?_, ?_, ?_⟩
  · intro fields hf
    simp [interpolateRequest, hf]
  · intro items hf
    simp [interpolateRequest, hf]
  · intro hu
    simp [interpolateRequest, hu]
  · intro hh
    simp [interpolateRequest, hh]
  · intro hb
    simp [interpolateRequest, hb]

/-- Witness for C9 at the end-to-end example of the spec: header names are
kept, header values are interpolated, and the absent body stays absent. -/
theorem interpolateRequest_field_mapping_witness :
    (interpolateRequest
        { url := some "\x7b\x7bBASE_URL\x7d\x7d/users"
          headers := some (JsHeaders.obj [("Authorization", "Bearer \x7b\x7bTOKEN\x7d\x7d")]) }
        [("BASE_URL", some "https://api.example.com"),
          ("TOKEN", some "abc")]).headers =
      some (JsHeaders.obj [("Authorization", "Bearer abc")]) ∧
    (interpolateRequest
        { url := some "\x7b\x7bBASE_URL\x7d\x7d/users"
          headers := some (JsHeaders.obj [("Authorization", "Bearer \x7b\x7bTOKEN\x7d\x7d")]) }
        [("BASE_URL", some "https://api.example.com"),
          ("TOKEN", some "abc")]).body = none := by
  have h := interpolateRequest_field_mapping
    { url := some "\x7b\x7bBASE_URL\x7d\x7d/users"
      headers := some (JsHeaders.obj [("Authorization", "Bearer \x7b\x7bTOKEN\x7d\x7d")]) }
    [("BASE_URL", some "https://api.example.com"), ("TOKEN", some "abc")]
  constructor
  · rw [h.2.2.2.2.1 [("Authorization", "Bearer \x7b\x7bTOKEN\x7d\x7d")] rfl]
    decide
  · exact h.2.2.2.2.2.2.2.2 rfl

/-- C10: the save-then-lookup round-trip for environments holds exactly for
names without a dot.  A dot-free name saved with `saveEnvironment` is found
by `getEnvironments()[name]` with exactly the saved variables; a name
containing a dot is stored as a nested object by the lodash path write, so
immediately after the save the same lookup is `undefined` and `getEnv`
fails with an unknown-environment `ConfigurationError`. -/
theorem environment_roundtrip_dot_sensitivity (ds : DataStore)
    (fs : List (String × Json)) (n : String) (vars : Json)
    (hds : ds.environments = Json.obj fs) :
    ('.' ∉ n.data →
      envLookup (getEnvironments (saveEnvironment ds n vars)) n = some vars) ∧
    ('.' ∈ n.data → assocGet fs n = none → trimJs n = n → n ≠ "" →
      envLookup (getEnvironments (saveEnvironment ds n vars)) n = none ∧
      ∃ msg, getEnv (saveEnvironment ds n vars) (some n) =
        Except.error (JsError.configuration msg)) := by
  constructor
  · intro hn
    show envLookup (jsonSet ds.environments (splitDot n) vars) n = some vars
    rw [splitDot_no_dot n hn, hds]
    show envLookup (Json.obj (assocSet fs n vars)) n = some vars
    exact assocGet_assocSet_self fs n vars
  · intro hdot hpre htrim hne
    obtain ⟨h0, t0, hsp⟩ : ∃ h0 t0, splitDotChars n.data = h0 :: t0 := by
      cases hsp : splitDotChars n.data with
      | nil => exact absurd hsp (splitDotChars_ne_nil n.data)
      | cons a b => exact ⟨a, b, rfl⟩
    have hlen2 := splitDotChars_dot_long n.data hdot
    rw [hsp] at hlen2
    obtain ⟨h1, t1, rfl⟩ : ∃ h1 t1, t0 = h1 :: t1 := by
      cases t0 with
      | nil => simp at hlen2
      | cons a b => exact ⟨a, b, rfl⟩
    have hh0 : '.' ∉ h0 := splitDotChars_head_no_dot n.data h0 (h1 :: t1) hsp
    have hmkne : String.mk h0 ≠ n := by
      intro he
      apply hh0
      have hdd : h0 = n.data := congrArg String.data he
      rw [hdd]
      exact hdot
    have hsplitn : splitDot n =
        String.mk h0 :: String.mk h1 :: t1.map (fun l => String.mk l) := by
      rw [splitDot, hsp]
      simp
    have hlook : envLookup (getEnvironments (saveEnvironment ds n vars)) n =
        none := by
      show envLookup (jsonSet ds.environments (splitDot n) vars) n = none
      rw [hsplitn, hds]
      show assocGet (assocSet fs (String.mk h0)
        (jsonSet (childObj fs (String.mk h0))
          (String.mk h1 :: t1.map (fun l => String.mk l)) vars)) n = none
      rw [assocGet_assocSet_ne fs n (String.mk h0) _ hmkne]
      exact hpre
    refine ⟨hlook, ⟨unknownEnvMessage n
      (envKeys (getEnvironments (saveEnvironment ds n vars))), ?_⟩⟩
    simp only [getEnv, htrim, hne, if_false, hlook]

/-- Witness for C10: saving under the dotted name `a.b` succeeds but the
immediate lookup misses and `getEnv` fails. -/
theorem environment_roundtrip_dot_sensitivity_witness :
    envLookup (getEnvironments (saveEnvironment initialStore "a.b"
      (Json.obj [("X", Json.str "1")]))) "a.b" = none ∧
    ∃ msg, getEnv (saveEnvironment initialStore "a.b"
        (Json.obj [("X", Json.str "1")])) (some "a.b") =
      Except.error (JsError.configuration msg) :=
  (environment_roundtrip_dot_sensitivity initialStore [] "a.b"
    (Json.obj [("X", Json.str "1")]) rfl).2
    (by decide) rfl (by decide) (by decide)

end ApiEx
